import Mathlib

/-!
Verification of the `blob` container package: an archive format packing
multiple identified binary resources into one file.  The embedding below
translates the Go source (`blob.go`) into pure Lean functions.  Bytes are
modelled as natural numbers; machine-integer conversions (`uint16`,
`uint32`, `uint64`) are modelled by explicit reduction modulo the
corresponding power of two, matching Go's wrapping conversions.
-/

namespace blob

/-- Go `indexItem`: `id` is the identifier's bytes, `start` and `stop`
(Go field `end`) are offsets into the data section. -/
structure IndexItem where
  id : List Nat
  start : Nat
  stop : Nat
  deriving DecidableEq, Repr

/-- Go `Blob`: parsed index plus the owned data buffer. -/
structure Blob where
  header : List IndexItem
  data : List Nat
  deriving DecidableEq, Repr

/-- Go `New`: an empty blob. -/
def New : Blob := ⟨[], []⟩

/-- Go `Blob.ItemCount`. -/
def Blob.ItemCount (b : Blob) : Nat := b.header.length

/-- Go `Blob.Append`: records an index entry with `start = len(b.data)` and
`end = len(b.data) + len(data)`, then appends the data bytes. -/
def Blob.Append (b : Blob) (id : List Nat) (data : List Nat) : Blob :=
  ⟨b.header ++ [⟨id, b.data.length, b.data.length + data.length⟩], b.data ++ data⟩

/-- A sequence of `Append` calls starting from blob `b`. -/
def appendAll (b : Blob) (ps : List (List Nat × List Nat)) : Blob :=
  ps.foldl (fun acc p => acc.Append p.1 p.2) b

/-- The Go slice expression `b.data[it.start:it.end]`. -/
def Blob.extract (b : Blob) (it : IndexItem) : List Nat :=
  (b.data.drop it.start).take (it.stop - it.start)

/-- Go `Blob.GetByID`: linear scan returning the first entry whose id
matches; `([], false)` when there is none (`nil, false` in Go). -/
def Blob.GetByID (b : Blob) (id : List Nat) : List Nat × Bool :=
  match b.header.find? (fun it => decide (it.id = id)) with
  | some it => (b.extract it, true)
  | none => ([], false)

/-- Go `Blob.GetByIndex`: bounds-checked positional lookup; the index is an
`Int` because Go's `int` admits negative values. -/
def Blob.GetByIndex (b : Blob) (i : Int) : List Nat × Bool :=
  if i < 0 ∨ (b.header.length : Int) ≤ i then ([], false)
  else
    match b.header[i.toNat]? with
    | some it => (b.extract it, true)
    | none => ([], false)

/-- Go `Blob.GetIDAtIndex`: the id at index `i`, or the empty string for an
out-of-range index. -/
def Blob.GetIDAtIndex (b : Blob) (i : Int) : List Nat :=
  if i < 0 ∨ (b.header.length : Int) ≤ i then []
  else
    match b.header[i.toNat]? with
    | some it => it.id
    | none => []

/-- Little-endian byte encoding of `n` on `w` bytes (encodes `n % 256^w`,
exactly like Go's wrapping integer conversions followed by
`binary.Write` with `binary.LittleEndian`). -/
def leBytes : Nat → Nat → List Nat
  | 0, _ => []
  | w + 1, n => n % 256 :: leBytes w (n / 256)

/-- Little-endian value of a byte list, as read by `binary.Read`. -/
def leNat : List Nat → Nat
  | [] => 0
  | b :: bs => b + 256 * leNat bs

/-- Go `uint64` subtraction `a - b` (wrapping). -/
def u64sub (a b : Nat) : Nat := (a % 2 ^ 64 + (2 ^ 64 - b % 2 ^ 64)) % 2 ^ 64

/-- One header entry as emitted by the loop in `Blob.Write`:
`uint16(len(id))`, the id bytes, then `uint64(end - start)`. -/
def encodeItem (it : IndexItem) : List Nat :=
  leBytes 2 it.id.length ++ it.id ++ leBytes 8 (u64sub it.stop it.start)

/-- The header bytes accumulated in `Blob.Write`'s temporary buffer. -/
def encodeEntries : List IndexItem → List Nat
  | [] => []
  | it :: rest => encodeItem it ++ encodeEntries rest

/-- The encoded byte size of the header: sum over entries of
`2 + len(id) + 8`. -/
def headerSize (b : Blob) : Nat :=
  (b.header.map (fun it => 2 + it.id.length + 8)).sum

/-- Go `Blob.Write`, output side: `uint32(buffer.Len())` little-endian,
then the header bytes, then the data buffer.  Writing to an in-memory
destination cannot fail, so the result is the emitted byte list. -/
def Blob.writeBytes (b : Blob) : List Nat :=
  leBytes 4 (encodeEntries b.header).length ++ encodeEntries b.header ++ b.data

/-- Go `Blob.Write` with the receiver threaded explicitly: the body only
reads `b.header` and `b.data` (building the header in a local buffer via the
loop's successive writes), never assigns to them, so the method returns the
receiver unchanged alongside the emitted bytes. -/
def Blob.WriteRun (b : Blob) : List Nat × Blob :=
  let buffer := b.header.foldl (fun acc it => acc ++ encodeItem it) []
  (leBytes 4 buffer.length ++ buffer ++ b.data, b)

/-- A source for `Read`, as a sequence of chunks: each call to the Go
reader's `Read` method delivers (a prefix of) the next chunk.  An in-memory
source such as `bytes.Buffer` is the single-chunk list `[bytes]`. -/
abbrev Chunks := List (List Nat)

/-- One call to the underlying reader's `Read(p)` with `n = len(p)`:
returns the bytes delivered, the remaining source, and an error flag
(end of input with a non-empty request, as for `bytes.Buffer`). -/
def readOnce (n : Nat) (cs : Chunks) : List Nat × Chunks × Bool :=
  match cs with
  | [] => if n = 0 then ([], [], false) else ([], [], true)
  | c :: rest =>
    if n = 0 then ([], c :: rest, false)
    else (c.take n, if c.length ≤ n then rest else c.drop n :: rest, false)

/-- `io.ReadFull` (also used inside `binary.Read`): repeatedly reads until
`n` bytes are delivered, `none` when the source is exhausted first. -/
def readFull (n : Nat) (cs : Chunks) : Option (List Nat × Chunks) :=
  match cs with
  | [] => if n = 0 then some ([], []) else none
  | c :: rest =>
    if n ≤ c.length then
      some (c.take n, if c.length ≤ n then rest else c.drop n :: rest)
    else
      match readFull (n - c.length) rest with
      | some (bs, cs') => some (c ++ bs, cs')
      | none => none

/-- The header-dissecting loop of `Read`, on the in-memory header bytes:
while bytes remain, read a `uint16` id length, that many id bytes, and a
`uint64` data length, accumulating the running `overallDataLength` with
Go `uint64` wrapping addition.  The first argument is structural fuel;
`parseHeader` below instantiates it with the buffer length, which bounds
the iteration count since every iteration consumes at least two bytes. -/
def parseHeaderF : Nat → List Nat → Nat → Option (List IndexItem × Nat)
  | _, [], overall => some ([], overall)
  | 0, _ :: _, _ => none
  | fuel + 1, b0 :: bs0, overall =>
    let bs := b0 :: bs0
    if bs.length < 2 then none
    else
      let idLen := leNat (bs.take 2)
      let r1 := bs.drop 2
      if r1.length < idLen then none
      else
        let id := r1.take idLen
        let r2 := r1.drop idLen
        if r2.length < 8 then none
        else
          let dl := leNat (r2.take 8)
          let stop := (overall + dl) % 2 ^ 64
          match parseHeaderF fuel (r2.drop 8) stop with
          | some (items, fin) => some (⟨id, overall, stop⟩ :: items, fin)
          | none => none

/-- The header-dissecting loop of `Read` (see `parseHeaderF`). -/
def parseHeader (bs : List Nat) (overall : Nat) : Option (List IndexItem × Nat) :=
  parseHeaderF bs.length bs overall

/-- Go `Read`: a `uint32` header length via `binary.Read` (which uses
`io.ReadFull`), then a single `r.Read` call into the zero-initialized
header buffer checked only for an error (never for a short count), then the
header dissection, then — when the accumulated data length is positive —
an `io.ReadFull` of the data.  `none` models a non-nil error (nil blob). -/
def Read (cs : Chunks) : Option Blob :=
  match readFull 4 cs with
  | none => none
  | some (lenB, cs1) =>
    let headerLength := leNat lenB
    match readOnce headerLength cs1 with
    | (_, _, true) => none
    | (got, cs2, false) =>
      let header := got ++ List.replicate (headerLength - got.length) 0
      match parseHeader header 0 with
      | none => none
      | some (items, overall) =>
        if 0 < overall then
          match readFull overall cs2 with
          | none => none
          | some (dat, _) => some ⟨items, dat⟩
        else some ⟨items, []⟩

/-- The zero-padded header buffer that `Read` dissects, as a function of the
source: the front part of `Read` itself — the 4-byte header length via
`binary.Read`, then the single `r.Read` call into the zero-initialized
`make([]byte, headerLength)` buffer. -/
def readHeaderBytes (cs : Chunks) : Option (List Nat) :=
  match readFull 4 cs with
  | none => none
  | some (lenB, cs1) =>
    let headerLength := leNat lenB
    match readOnce headerLength cs1 with
    | (_, _, true) => none
    | (got, _, false) =>
      some (got ++ List.replicate (headerLength - got.length) 0)

/-- The sequence of `uint64` dataLength fields that `Read`'s header loop
decodes, in dissection order: the same loop as `parseHeaderF`, projected
onto the values read into `dataLength` by `binary.Read`.  Fuel as in
`parseHeaderF`. -/
def declaredLensF : Nat → List Nat → Option (List Nat)
  | _, [] => some []
  | 0, _ :: _ => none
  | fuel + 1, b0 :: bs0 =>
    let bs := b0 :: bs0
    if bs.length < 2 then none
    else
      let idLen := leNat (bs.take 2)
      let r1 := bs.drop 2
      if r1.length < idLen then none
      else
        let r2 := r1.drop idLen
        if r2.length < 8 then none
        else
          match declaredLensF fuel (r2.drop 8) with
          | some ls => some (leNat (r2.take 8) :: ls)
          | none => none

/-- The `uint64` dataLength fields of a header (see `declaredLensF`). -/
def declaredLens (bs : List Nat) : Option (List Nat) :=
  declaredLensF bs.length bs

/-! ### Byte-codec lemmas -/

theorem length_leBytes (w n : Nat) : (leBytes w n).length = w := by
  induction w generalizing n with
  | zero => rfl
  | succ w ih => simp [leBytes, ih]

theorem leNat_leBytes (w n : Nat) : leNat (leBytes w n) = n % 256 ^ w := by
  induction w generalizing n with
  | zero => simp [leBytes, leNat, Nat.mod_one]
  | succ w ih =>
    simp only [leBytes, leNat, ih]
    rw [Nat.pow_succ, Nat.mul_comm (256 ^ w) 256, Nat.mod_mul]

theorem leNat_lt (bs : List Nat) (h : ∀ x ∈ bs, x < 256) :
    leNat bs < 256 ^ bs.length := by
  induction bs with
  | nil => simp [leNat]
  | cons b bs ih =>
    have hb : b < 256 := h b (by simp)
    have ht := ih (fun x hx => h x (by simp [hx]))
    simp only [leNat, List.length_cons, Nat.pow_succ]
    calc b + 256 * leNat bs < 256 * (leNat bs + 1) := by omega
    _ ≤ 256 * 256 ^ bs.length := Nat.mul_le_mul_left _ ht
    _ = 256 ^ bs.length * 256 := by ring

theorem leBytes_leNat (bs : List Nat) (h : ∀ x ∈ bs, x < 256) :
    leBytes bs.length (leNat bs) = bs := by
  induction bs with
  | nil => rfl
  | cons b bs ih =>
    have hb : b < 256 := h b (by simp)
    simp only [List.length_cons, leBytes, leNat]
    have h1 : (b + 256 * leNat bs) % 256 = b := by omega
    have h2 : (b + 256 * leNat bs) / 256 = leNat bs := by omega
    rw [h1, h2, ih (fun x hx => h x (by simp [hx]))]

theorem mem_leBytes_lt (w n : Nat) : ∀ x ∈ leBytes w n, x < 256 := by
  induction w generalizing n with
  | zero => simp [leBytes]
  | succ w ih =>
    intro x hx
    simp only [leBytes, List.mem_cons] at hx
    rcases hx with h | h
    · omega
    · exact ih _ x h

theorem u64sub_lt (a b : Nat) : u64sub a b < 2 ^ 64 := by
  unfold u64sub
  exact Nat.mod_lt _ (by norm_num)

theorem u64sub_exact (a b : Nat) (hb : b ≤ a) (h : a - b < 2 ^ 64) :
    u64sub a b = a - b := by
  unfold u64sub
  have hM : (2:ℕ) ^ 64 = 18446744073709551616 := by norm_num
  rw [hM] at h ⊢
  omega

theorem u64sub_parse (ov dl : Nat) (h2 : dl < 2 ^ 64) :
    u64sub ((ov + dl) % 2 ^ 64) ov = dl := by
  unfold u64sub
  have hM : (2:ℕ) ^ 64 = 18446744073709551616 := by norm_num
  rw [hM] at h2 ⊢
  omega

theorem u64sub_mod_parse (ov dl : Nat) :
    u64sub ((ov + dl) % 2 ^ 64) ov = dl % 2 ^ 64 := by
  unfold u64sub
  have hM : (2:ℕ) ^ 64 = 18446744073709551616 := by norm_num
  rw [hM]
  omega

theorem u64sub_add (a b : Nat) (ha : a < 2 ^ 64) (hb : b < 2 ^ 64) :
    (b + u64sub a b) % 2 ^ 64 = a := by
  unfold u64sub
  have hM : (2:ℕ) ^ 64 = 18446744073709551616 := by norm_num
  rw [hM] at ha hb ⊢
  omega

theorem length_encodeItem (it : IndexItem) :
    (encodeItem it).length = 2 + it.id.length + 8 := by
  simp [encodeItem, length_leBytes]
  omega

theorem length_encodeEntries (items : List IndexItem) :
    (encodeEntries items).length
      = (items.map (fun it => 2 + it.id.length + 8)).sum := by
  induction items with
  | nil => rfl
  | cons it rest ih => simp [encodeEntries, length_encodeItem, ih]


/-! ### Parse lemmas -/

theorem parseHeaderF_nil (f ov : Nat) : parseHeaderF f [] ov = some ([], ov) := by
  cases f <;> rfl

theorem parseHeaderF_congr (f : Nat) : ∀ (g : Nat) (bs : List Nat) (ov : Nat),
    bs.length ≤ f → bs.length ≤ g → parseHeaderF f bs ov = parseHeaderF g bs ov := by
  induction f with
  | zero =>
    intro g bs ov hf _
    have : bs = [] := List.eq_nil_of_length_eq_zero (by omega)
    subst this
    rw [parseHeaderF_nil, parseHeaderF_nil]
  | succ f ih =>
    intro g bs ov hf hg
    match bs with
    | [] => rw [parseHeaderF_nil, parseHeaderF_nil]
    | b0 :: bs0 =>
      match g with
      | 0 => simp at hg
      | g + 1 =>
        simp only [parseHeaderF]
        have hlen : ∀ n : Nat, ((b0 :: bs0).drop 2 |>.drop n |>.drop 8).length
            = bs0.length + 1 - 2 - n - 8 := by
          intro n; simp [List.length_drop]; omega
        split_ifs with h1 h2 h3
        · rfl
        · rfl
        · rfl
        · have hrec := ih g (((b0 :: bs0).drop 2).drop (leNat ((b0 :: bs0).take 2)) |>.drop 8)
            ((ov + leNat ((((b0 :: bs0).drop 2).drop (leNat ((b0 :: bs0).take 2))).take 8)) % 2 ^ 64)
            (by rw [hlen]; simp at hf ⊢; omega)
            (by rw [hlen]; simp at hg ⊢; omega)
          rw [hrec]



theorem parseHeader_cons (a c : Nat) (id dlb rest : List Nat) (ov : Nat)
    (hid : leNat [a, c] = id.length) (hdlb : dlb.length = 8) :
    parseHeader (a :: c :: (id ++ dlb ++ rest)) ov
      = (parseHeader rest ((ov + leNat dlb) % 2 ^ 64)).map
          (fun r => (⟨id, ov, (ov + leNat dlb) % 2 ^ 64⟩ :: r.1, r.2)) := by
  unfold parseHeader
  simp only [List.length_cons]
  simp only [parseHeaderF]
  have htake2 : (a :: c :: (id ++ dlb ++ rest)).take 2 = [a, c] := rfl
  have hdrop2 : (a :: c :: (id ++ dlb ++ rest)).drop 2 = id ++ dlb ++ rest := rfl
  rw [htake2, hdrop2, hid]
  have h1 : ¬ ((a :: c :: (id ++ dlb ++ rest)).length < 2) := by simp
  have htakeId : (id ++ dlb ++ rest).take id.length = id := by
    rw [List.append_assoc]; exact List.take_left id _
  have hdropId : (id ++ dlb ++ rest).drop id.length = dlb ++ rest := by
    rw [List.append_assoc]; exact List.drop_left id _
  have h2 : ¬ ((id ++ dlb ++ rest).length < id.length) := by simp
  have h3 : ¬ ((dlb ++ rest).length < 8) := by simp [hdlb]
  have htake8 : (dlb ++ rest).take 8 = dlb := List.take_left' hdlb
  have hdrop8 : (dlb ++ rest).drop 8 = rest := List.drop_left' hdlb
  rw [if_neg h1, if_neg h2]
  rw [htakeId, hdropId]
  rw [if_neg h3, htake8, hdrop8]
  have hcongr := parseHeaderF_congr ((id ++ dlb ++ rest).length + 1) rest.length rest
    ((ov + leNat dlb) % 2 ^ 64) (by simp; omega) (le_refl _)
  rw [hcongr]
  cases parseHeaderF rest.length rest ((ov + leNat dlb) % 2 ^ 64) with
  | none => rfl
  | some r => rfl



/-- The chaining invariant linking consecutive index entries. -/
def goodChain : Nat → List IndexItem → Prop
  | _, [] => True
  | ov, it :: rest =>
    it.start = ov ∧ it.stop < 2 ^ 64 ∧ it.id.length < 2 ^ 16 ∧ goodChain it.stop rest

/-- The running data offset after a chain of entries. -/
def chainEnd : Nat → List IndexItem → Nat
  | ov, [] => ov
  | _, it :: rest => chainEnd it.stop rest

theorem parse_encodeEntries (items : List IndexItem) : ∀ ov : Nat,
    goodChain ov items → ov < 2 ^ 64 →
    parseHeader (encodeEntries items) ov = some (items, chainEnd ov items) := by
  induction items with
  | nil =>
    intro ov _ _
    unfold parseHeader
    simpa [encodeEntries] using parseHeaderF_nil 0 ov
  | cons it rest ih =>
    intro ov hchain hov
    obtain ⟨hstart, hstop, hidlen, hrest⟩ := hchain
    have hL : leBytes 2 it.id.length = [it.id.length % 256, it.id.length / 256 % 256] := rfl
    have hshape : encodeEntries (it :: rest)
        = it.id.length % 256 :: it.id.length / 256 % 256
          :: (it.id ++ leBytes 8 (u64sub it.stop it.start) ++ encodeEntries rest) := by
      simp [encodeEntries, encodeItem, hL, List.append_assoc]
    rw [hshape]
    have hid : leNat [it.id.length % 256, it.id.length / 256 % 256] = it.id.length := by
      rw [← hL, leNat_leBytes]
      have : (256:ℕ) ^ 2 = 2 ^ 16 := by norm_num
      rw [this]
      exact Nat.mod_eq_of_lt hidlen
    rw [parseHeader_cons _ _ _ _ _ _ hid (length_leBytes 8 _)]
    have hdl : leNat (leBytes 8 (u64sub it.stop it.start)) = u64sub it.stop it.start := by
      rw [leNat_leBytes]
      have : (256:ℕ) ^ 8 = 2 ^ 64 := by norm_num
      rw [this]
      exact Nat.mod_eq_of_lt (u64sub_lt _ _)
    rw [hdl]
    have hstop' : (ov + u64sub it.stop it.start) % 2 ^ 64 = it.stop := by
      rw [← hstart] at hov ⊢
      exact u64sub_add it.stop it.start hstop hov
    rw [hstop']
    rw [ih it.stop hrest hstop]
    simp only [Option.map_some']
    have : (⟨it.id, ov, it.stop⟩ : IndexItem) = it := by rw [← hstart]
    rw [this]
    rfl



theorem encodeEntries_parseF (f : Nat) : ∀ (bs : List Nat) (ov : Nat)
    (items : List IndexItem) (fin : Nat), bs.length ≤ f →
    (∀ x ∈ bs, x < 256) → ov < 2 ^ 64 →
    parseHeaderF f bs ov = some (items, fin) →
    encodeEntries items = bs ∧ goodChain ov items ∧ chainEnd ov items = fin := by
  induction f with
  | zero =>
    intro bs ov items fin hf _ _ hp
    have hnil : bs = [] := List.eq_nil_of_length_eq_zero (by omega)
    subst hnil
    rw [parseHeaderF_nil] at hp
    simp only [Option.some.injEq, Prod.mk.injEq] at hp
    obtain ⟨h1, h2⟩ := hp
    subst h1; subst h2
    exact ⟨rfl, trivial, rfl⟩
  | succ f ih =>
    intro bs ov items fin hf hbytes hov hp
    match bs, hf, hbytes, hp with
    | [], hf, hbytes, hp =>
      rw [parseHeaderF_nil] at hp
      simp only [Option.some.injEq, Prod.mk.injEq] at hp
      obtain ⟨h1, h2⟩ := hp
      subst h1; subst h2
      exact ⟨rfl, trivial, rfl⟩
    | b0 :: bs0, hf, hbytes, hp =>
      simp only [parseHeaderF] at hp
      split_ifs at hp with h1 h2 h3
      cases hrec : parseHeaderF f ((((b0 :: bs0).drop 2).drop (leNat ((b0 :: bs0).take 2))).drop 8)
          ((ov + leNat ((((b0 :: bs0).drop 2).drop (leNat ((b0 :: bs0).take 2))).take 8)) % 2 ^ 64) with
      | none => rw [hrec] at hp; simp at hp
      | some r =>
        obtain ⟨items0, fin0⟩ := r
        rw [hrec] at hp
        simp only [Option.some.injEq, Prod.mk.injEq] at hp
        obtain ⟨hitems, hfin⟩ := hp
        -- abbreviations
        have hbs2 : 2 ≤ (b0 :: bs0).length := by omega
        have htk2len : ((b0 :: bs0).take 2).length = 2 := by
          rw [List.length_take]; omega
        have htk2mem : ∀ x ∈ (b0 :: bs0).take 2, x < 256 :=
          fun x hx => hbytes x (List.mem_of_mem_take hx)
        have hidlt : leNat ((b0 :: bs0).take 2) < 2 ^ 16 := by
          have h := leNat_lt _ htk2mem
          rw [htk2len] at h
          have h2562 : (256:ℕ) ^ 2 = 2 ^ 16 := by norm_num
          rw [h2562] at h
          exact h
        have hr1mem : ∀ x ∈ (b0 :: bs0).drop 2, x < 256 :=
          fun x hx => hbytes x (List.mem_of_mem_drop hx)
        have hr2mem : ∀ x ∈ ((b0 :: bs0).drop 2).drop (leNat ((b0 :: bs0).take 2)), x < 256 :=
          fun x hx => hr1mem x (List.mem_of_mem_drop hx)
        have htk8mem : ∀ x ∈ (((b0 :: bs0).drop 2).drop (leNat ((b0 :: bs0).take 2))).take 8, x < 256 :=
          fun x hx => hr2mem x (List.mem_of_mem_take hx)
        have htk8len : ((((b0 :: bs0).drop 2).drop (leNat ((b0 :: bs0).take 2))).take 8).length = 8 := by
          rw [List.length_take]; omega
        have hdllt : leNat ((((b0 :: bs0).drop 2).drop (leNat ((b0 :: bs0).take 2))).take 8) < 2 ^ 64 := by
          have h := leNat_lt _ htk8mem
          rw [htk8len] at h
          have h2568 : (256:ℕ) ^ 8 = 2 ^ 64 := by norm_num
          rw [h2568] at h
          exact h
        have hstoplt : (ov + leNat ((((b0 :: bs0).drop 2).drop (leNat ((b0 :: bs0).take 2))).take 8)) % 2 ^ 64 < 2 ^ 64 :=
          Nat.mod_lt _ (by norm_num)
        have hr3len : (((((b0 :: bs0).drop 2).drop (leNat ((b0 :: bs0).take 2))).drop 8)).length ≤ f := by
          rw [List.length_drop, List.length_drop, List.length_drop]
          omega
        have hr3mem : ∀ x ∈ ((((b0 :: bs0).drop 2).drop (leNat ((b0 :: bs0).take 2))).drop 8), x < 256 :=
          fun x hx => hr2mem x (List.mem_of_mem_drop hx)
        obtain ⟨henc0, hchain0, hend0⟩ := ih _ _ _ _ hr3len hr3mem hstoplt hrec
        subst hitems
        refine ⟨?_, ?_, ?_⟩
        · -- re-encoding gives back the input bytes
          show encodeItem _ ++ encodeEntries items0 = b0 :: bs0
          rw [henc0]
          unfold encodeItem
          simp only
          have hidlen : ((((b0 :: bs0).drop 2)).take (leNat ((b0 :: bs0).take 2))).length
              = leNat ((b0 :: bs0).take 2) := by
            rw [List.length_take]; omega
          rw [hidlen]
          have e1 : leBytes 2 (leNat ((b0 :: bs0).take 2)) = (b0 :: bs0).take 2 := by
            have := leBytes_leNat _ htk2mem
            rw [htk2len] at this
            exact this
          have e2 : leBytes 8 (u64sub ((ov + leNat ((((b0 :: bs0).drop 2).drop (leNat ((b0 :: bs0).take 2))).take 8)) % 2 ^ 64) ov)
              = (((b0 :: bs0).drop 2).drop (leNat ((b0 :: bs0).take 2))).take 8 := by
            rw [u64sub_parse ov _ hdllt]
            have := leBytes_leNat _ htk8mem
            rw [htk8len] at this
            exact this
          rw [e1, e2]
          rw [List.append_assoc, List.append_assoc]
          rw [List.take_append_drop 8]
          rw [List.take_append_drop (leNat ((b0 :: bs0).take 2))]
          exact List.take_append_drop 2 _
        · -- the chaining invariant
          refine ⟨rfl, hstoplt, ?_, hchain0⟩
          show ((((b0 :: bs0).drop 2)).take (leNat ((b0 :: bs0).take 2))).length < 2 ^ 16
          rw [List.length_take]
          omega
        · -- the final running offset
          show chainEnd _ items0 = fin
          rw [← hfin]
          exact hend0


/-! ### Append-chain and reader lemmas -/

/-- The index entries produced by a sequence of appends starting at data
offset `ov`. -/
def chain : Nat → List (List Nat × List Nat) → List IndexItem
  | _, [] => []
  | ov, p :: ps => ⟨p.1, ov, ov + p.2.length⟩ :: chain (ov + p.2.length) ps

/-- The concatenated data of a sequence of appends. -/
def catData : List (List Nat × List Nat) → List Nat
  | [] => []
  | p :: ps => p.2 ++ catData ps

theorem appendAll_spec (ps : List (List Nat × List Nat)) : ∀ b : Blob,
    appendAll b ps = ⟨b.header ++ chain b.data.length ps, b.data ++ catData ps⟩ := by
  induction ps with
  | nil => intro b; simp [appendAll, chain, catData]
  | cons p ps ih =>
    intro b
    show appendAll (b.Append p.1 p.2) ps = _
    rw [ih]
    simp [Blob.Append, chain, catData, List.append_assoc]

theorem length_chain (ov : Nat) (ps : List (List Nat × List Nat)) :
    (chain ov ps).length = ps.length := by
  induction ps generalizing ov with
  | nil => rfl
  | cons p ps ih => simp [chain, ih]

theorem length_catData (ps : List (List Nat × List Nat)) :
    (catData ps).length = (ps.map (fun p => p.2.length)).sum := by
  induction ps with
  | nil => rfl
  | cons p ps ih => simp [catData, ih]

theorem chainEnd_chain (ps : List (List Nat × List Nat)) : ∀ ov,
    chainEnd ov (chain ov ps) = ov + (ps.map (fun p => p.2.length)).sum := by
  induction ps with
  | nil => intro ov; simp [chain, chainEnd]
  | cons p ps ih => intro ov; simp [chain, chainEnd, ih]; omega

theorem goodChain_chain (ps : List (List Nat × List Nat)) : ∀ ov,
    (∀ p ∈ ps, p.1.length < 2 ^ 16) →
    ov + (ps.map (fun p => p.2.length)).sum < 2 ^ 64 →
    goodChain ov (chain ov ps) := by
  induction ps with
  | nil => intro ov _ _; trivial
  | cons p ps ih =>
    intro ov hid hs
    simp only [List.map_cons, List.sum_cons] at hs
    refine ⟨rfl, ?_, hid p (by simp), ?_⟩
    · show ov + p.2.length < 2 ^ 64
      omega
    · exact ih (ov + p.2.length) (fun q hq => hid q (by simp [hq])) (by omega)

theorem readFull_length : ∀ (cs : Chunks) (n : Nat) (bs : List Nat) (cs' : Chunks),
    readFull n cs = some (bs, cs') → bs.length = n := by
  intro cs
  induction cs with
  | nil =>
    intro n bs cs' h
    by_cases hn : n = 0
    · subst hn
      simp [readFull] at h
      simp [h.1]
    · simp [readFull, hn] at h
  | cons c rest ih =>
    intro n bs cs' h
    simp only [readFull] at h
    split_ifs at h with h1 h2
    · simp only [Option.some.injEq, Prod.mk.injEq] at h
      rw [← h.1, List.length_take]
      omega
    · simp only [Option.some.injEq, Prod.mk.injEq] at h
      rw [← h.1, List.length_take]
      omega
    · cases hrec : readFull (n - c.length) rest with
      | none => rw [hrec] at h; simp at h
      | some r =>
        obtain ⟨bs0, cs0⟩ := r
        rw [hrec] at h
        simp only [Option.some.injEq, Prod.mk.injEq] at h
        have := ih _ _ _ hrec
        rw [← h.1]
        simp only [List.length_append]
        omega

theorem readFull_single (n : Nat) (s : List Nat) (h : n ≤ s.length) :
    readFull n [s] = some (s.take n, if s.length ≤ n then [] else [s.drop n]) := by
  simp [readFull, h]



theorem chain_find_extract (ps : List (List Nat × List Nat)) : ∀ (pre : List Nat) (id : List Nat),
    (match (chain pre.length ps).find? (fun it => decide (it.id = id)) with
     | some it => (((pre ++ catData ps).drop it.start).take (it.stop - it.start), true)
     | none => ([], false))
    = (match ps.find? (fun q => decide (q.1 = id)) with
       | some q => (q.2, true)
       | none => ([], false)) := by
  induction ps with
  | nil => intro pre id; simp [chain, catData]
  | cons p ps ih =>
    intro pre id
    by_cases hid : p.1 = id
    · simp only [chain, catData]
      rw [List.find?_cons_of_pos _ (by simp [hid]), List.find?_cons_of_pos _ (by simp [hid])]
      simp only [List.append_assoc]
      rw [List.drop_left pre]
      have hd : pre.length + p.2.length - pre.length = p.2.length := by omega
      simp only [hd]
      rw [List.take_left' rfl]
    · simp only [chain, catData]
      rw [List.find?_cons_of_neg _ (by simp [hid]), List.find?_cons_of_neg _ (by simp [hid])]
      have hlen : pre.length + p.2.length = (pre ++ p.2).length := by simp
      have hdata : pre ++ (p.2 ++ catData ps) = (pre ++ p.2) ++ catData ps := by
        simp [List.append_assoc]
      rw [hlen, hdata]
      exact ih (pre ++ p.2) id

/-- The structural invariant maintained by the header-dissection loop:
entries are contiguous and every `stop` is reduced modulo `2^64`. -/
def chainInv : Nat → List IndexItem → Prop
  | _, [] => True
  | ov, it :: rest => it.start = ov ∧ it.stop < 2 ^ 64 ∧ chainInv it.stop rest

theorem parse_chainInv (f : Nat) : ∀ (bs : List Nat) (ov : Nat)
    (items : List IndexItem) (fin : Nat), ov < 2 ^ 64 →
    parseHeaderF f bs ov = some (items, fin) →
    chainInv ov items ∧ chainEnd ov items = fin := by
  induction f with
  | zero =>
    intro bs ov items fin hov hp
    match bs, hp with
    | [], hp =>
      rw [parseHeaderF_nil] at hp
      simp only [Option.some.injEq, Prod.mk.injEq] at hp
      obtain ⟨h1, h2⟩ := hp
      subst h1; subst h2
      exact ⟨trivial, rfl⟩
    | _ :: _, hp => simp [parseHeaderF] at hp
  | succ f ih =>
    intro bs ov items fin hov hp
    match bs, hp with
    | [], hp =>
      rw [parseHeaderF_nil] at hp
      simp only [Option.some.injEq, Prod.mk.injEq] at hp
      obtain ⟨h1, h2⟩ := hp
      subst h1; subst h2
      exact ⟨trivial, rfl⟩
    | b0 :: bs0, hp =>
      simp only [parseHeaderF] at hp
      split_ifs at hp with h1 h2 h3
      cases hrec : parseHeaderF f ((((b0 :: bs0).drop 2).drop (leNat ((b0 :: bs0).take 2))).drop 8)
          ((ov + leNat ((((b0 :: bs0).drop 2).drop (leNat ((b0 :: bs0).take 2))).take 8)) % 2 ^ 64) with
      | none => rw [hrec] at hp; simp at hp
      | some r =>
        obtain ⟨items0, fin0⟩ := r
        rw [hrec] at hp
        simp only [Option.some.injEq, Prod.mk.injEq] at hp
        obtain ⟨hitems, hfin⟩ := hp
        have hstoplt : (ov + leNat ((((b0 :: bs0).drop 2).drop (leNat ((b0 :: bs0).take 2))).take 8)) % 2 ^ 64 < 2 ^ 64 :=
          Nat.mod_lt _ (by norm_num)
        obtain ⟨hinv0, hend0⟩ := ih _ _ _ _ hstoplt hrec
        subst hitems
        exact ⟨⟨rfl, hstoplt, hinv0⟩, by rw [← hfin]; exact hend0⟩

theorem parse_declaredLens (f : Nat) : ∀ (bs : List Nat) (ov : Nat)
    (items : List IndexItem) (fin : Nat),
    parseHeaderF f bs ov = some (items, fin) →
    ∃ ls : List Nat, declaredLensF f bs = some ls ∧ ls.length = items.length ∧
      ∀ (i : Nat) (it : IndexItem) (l : Nat), items[i]? = some it → ls[i]? = some l →
        u64sub it.stop it.start = l % 2 ^ 64
        ∧ it.stop = (it.start + l) % 2 ^ 64 := by
  induction f with
  | zero =>
    intro bs ov items fin hp
    match bs, hp with
    | [], hp =>
      rw [parseHeaderF_nil] at hp
      simp only [Option.some.injEq, Prod.mk.injEq] at hp
      obtain ⟨h1, h2⟩ := hp
      subst h1
      exact ⟨[], rfl, rfl, by intro i it l hit _; simp at hit⟩
    | _ :: _, hp => simp [parseHeaderF] at hp
  | succ f ih =>
    intro bs ov items fin hp
    match bs, hp with
    | [], hp =>
      rw [parseHeaderF_nil] at hp
      simp only [Option.some.injEq, Prod.mk.injEq] at hp
      obtain ⟨h1, h2⟩ := hp
      subst h1
      exact ⟨[], rfl, rfl, by intro i it l hit _; simp at hit⟩
    | b0 :: bs0, hp =>
      simp only [parseHeaderF] at hp
      split_ifs at hp with h1 h2 h3
      cases hrec : parseHeaderF f ((((b0 :: bs0).drop 2).drop (leNat ((b0 :: bs0).take 2))).drop 8)
          ((ov + leNat ((((b0 :: bs0).drop 2).drop (leNat ((b0 :: bs0).take 2))).take 8)) % 2 ^ 64) with
      | none => rw [hrec] at hp; simp at hp
      | some r =>
        obtain ⟨items0, fin0⟩ := r
        rw [hrec] at hp
        simp only [Option.some.injEq, Prod.mk.injEq] at hp
        obtain ⟨hitems, hfin⟩ := hp
        obtain ⟨ls0, hls0, hlen0, hcorr0⟩ := ih _ _ _ _ hrec
        subst hitems
        refine ⟨leNat ((((b0 :: bs0).drop 2).drop (leNat ((b0 :: bs0).take 2))).take 8) :: ls0,
          ?_, ?_, ?_⟩
        · simp only [declaredLensF]
          rw [if_neg h1, if_neg h2, if_neg h3, hls0]
        · simp [hlen0]
        · intro i it l hit hl
          match i, hit, hl with
          | 0, hit, hl =>
            simp only [List.getElem?_cons_zero, Option.some.injEq] at hit hl
            subst hit
            subst hl
            exact ⟨u64sub_mod_parse ov _, rfl⟩
          | i + 1, hit, hl =>
            simp only [List.getElem?_cons_succ] at hit hl
            exact hcorr0 i it l hit hl

theorem chainInv_getLast (items : List IndexItem) : ∀ ov, chainInv ov items →
    chainEnd ov items = ((items.getLast?.map (fun it => it.stop)).getD ov) := by
  induction items with
  | nil => intro ov _; rfl
  | cons it rest ih =>
    intro ov hinv
    obtain ⟨_, _, hinv0⟩ := hinv
    show chainEnd it.stop rest = _
    rw [ih it.stop hinv0]
    cases rest with
    | nil => simp [List.getLast?]
    | cons it2 rest2 =>
      rw [List.getLast?_cons_cons]
      cases hL : (it2 :: rest2).getLast? with
      | none =>
        exfalso
        have := List.getLast?_isSome (l := it2 :: rest2) |>.mpr (by simp)
        rw [hL] at this
        simp at this
      | some x => simp [hL]


/-! ### Round-trip assembly -/

theorem chain_sizes (ps : List (List Nat × List Nat)) : ∀ ov,
    (chain ov ps).map (fun it => 2 + it.id.length + 8)
      = ps.map (fun p => 2 + p.1.length + 8) := by
  induction ps with
  | nil => intro ov; rfl
  | cons p ps ih => intro ov; simp [chain, ih]

theorem appendAll_New (ps : List (List Nat × List Nat)) :
    appendAll New ps = ⟨chain 0 ps, catData ps⟩ := by
  rw [appendAll_spec]
  rfl

theorem Read_writeBytes_appendAll (ps : List (List Nat × List Nat))
    (hid : ∀ p ∈ ps, p.1.length ≤ 65535)
    (hhdr : (ps.map (fun p => 2 + p.1.length + 8)).sum < 2 ^ 32)
    (hdata : (ps.map (fun p => p.2.length)).sum < 2 ^ 64) :
    Read [(appendAll New ps).writeBytes] = some (appendAll New ps) := by
  match ps, hid with
  | [], _ => rfl
  | p0 :: ps0, hid =>
    set ps := p0 :: ps0 with hps
    rw [appendAll_New]
    set E := encodeEntries (chain 0 ps) with hE
    set D := (catData ps).length with hD
    have hElen : E.length = (ps.map (fun p => 2 + p.1.length + 8)).sum := by
      rw [hE, length_encodeEntries, chain_sizes]
    have hE10 : 10 ≤ E.length := by
      rw [hElen, hps]
      simp only [List.map_cons, List.sum_cons]
      omega
    have hE32 : E.length < 2 ^ 32 := by rw [hElen]; exact hhdr
    have hDsum : D = (ps.map (fun p => p.2.length)).sum := length_catData ps
    have hwb : Blob.writeBytes ⟨chain 0 ps, catData ps⟩
        = leBytes 4 E.length ++ (E ++ catData ps) := by
      simp [Blob.writeBytes, List.append_assoc]
    rw [hwb]
    have hslen : (leBytes 4 E.length ++ (E ++ catData ps)).length = 4 + E.length + D := by
      simp [List.length_append, length_leBytes]
      omega
    -- step 1: the four header-length bytes
    have h1 : readFull 4 [leBytes 4 E.length ++ (E ++ catData ps)]
        = some (leBytes 4 E.length, [E ++ catData ps]) := by
      rw [readFull_single _ _ (by rw [hslen]; omega)]
      rw [List.take_left' (length_leBytes 4 _), if_neg (by rw [hslen]; omega),
        List.drop_left' (length_leBytes 4 _)]
    have h2 : leNat (leBytes 4 E.length) = E.length := by
      rw [leNat_leBytes]
      have : (256:ℕ) ^ 4 = 2 ^ 32 := by norm_num
      rw [this]
      exact Nat.mod_eq_of_lt hE32
    -- step 2: the single header read delivers the full header here
    have h3 : readOnce E.length [E ++ catData ps]
        = (E, if D = 0 then [] else [catData ps], false) := by
      simp only [readOnce, if_neg (by omega : ¬ E.length = 0)]
      rw [List.take_left]
      congr 1
      congr 1
      by_cases hD0 : D = 0
      · have hnil : catData ps = [] := List.eq_nil_of_length_eq_zero (by omega)
        have hcond : (E ++ catData ps).length ≤ E.length := by simp [hnil]
        rw [if_pos hD0, if_pos hcond]
      · have hcond : ¬ (E ++ catData ps).length ≤ E.length := by
          simp only [List.length_append]
          omega
        rw [if_neg hD0, if_neg hcond, List.drop_left]
    -- step 3: header dissection
    have hgood : goodChain 0 (chain 0 ps) := by
      apply goodChain_chain
      · intro p hp
        have := hid p hp
        omega
      · omega
    have h4 : parseHeader E 0 = some (chain 0 ps, D) := by
      rw [hE, parse_encodeEntries _ _ hgood (by norm_num)]
      rw [chainEnd_chain]
      rw [hDsum]
      simp
    -- assemble
    have h5 : E ++ List.replicate (E.length - E.length) 0 = E := by simp
    unfold Read
    rw [h1]
    dsimp only
    rw [h2, h3]
    dsimp only
    rw [h5, h4]
    dsimp only
    by_cases hD0 : 0 < D
    · rw [if_pos hD0, if_neg (by omega)]
      rw [readFull_single D (catData ps) (le_of_eq hD)]
      dsimp only
      rw [hD, List.take_length]
    · rw [if_neg hD0]
      have hnil : catData ps = [] := List.eq_nil_of_length_eq_zero (by omega)
      rw [hnil]



theorem read_write_identity (hl : Nat) (header data : List Nat)
    (items : List IndexItem) (fin : Nat)
    (hhl : hl = header.length) (h32 : header.length < 2 ^ 32)
    (hbytes : ∀ x ∈ header, x < 256)
    (hparse : parseHeader header 0 = some (items, fin))
    (hdlen : data.length = fin) :
    Read [leBytes 4 hl ++ header ++ data] = some ⟨items, data⟩ ∧
    Blob.writeBytes ⟨items, data⟩ = leBytes 4 hl ++ header ++ data := by
  obtain ⟨henc, hgood, hend⟩ := encodeEntries_parseF header.length header 0 items fin
    (le_refl _) hbytes (by norm_num) hparse
  constructor
  · -- Read reconstructs the container
    match header, hbytes, hparse, henc, h32, hhl with
    | [], _, hparse, henc, _, hhl =>
      rw [parseHeader] at hparse
      rw [parseHeaderF_nil] at hparse
      simp only [Option.some.injEq, Prod.mk.injEq] at hparse
      obtain ⟨hi, hf⟩ := hparse
      have hdnil : data = [] := by
        apply List.eq_nil_of_length_eq_zero
        omega
      subst hhl
      subst hdnil
      rw [← hi]
      rfl
    | b0 :: hs0, hbytes, hparse, henc, h32, hhl =>
      set header := b0 :: hs0 with hhdr
      set s := leBytes 4 hl ++ header ++ data with hs
      have hslen : s.length = 4 + header.length + data.length := by
        rw [hs]
        simp [List.length_append, length_leBytes]
        omega
      have h1 : readFull 4 [s] = some (leBytes 4 hl, [header ++ data]) := by
        rw [hs, List.append_assoc]
        rw [readFull_single _ _ (by simp [List.length_append, length_leBytes])]
        have hc : ¬ (leBytes 4 hl ++ (header ++ data)).length ≤ 4 := by
          simp [List.length_append, length_leBytes, hhdr]
        rw [List.take_left' (length_leBytes 4 _), if_neg hc,
          List.drop_left' (length_leBytes 4 _)]
      have h2 : leNat (leBytes 4 hl) = header.length := by
        rw [leNat_leBytes, hhl]
        have : (256:ℕ) ^ 4 = 2 ^ 32 := by norm_num
        rw [this]
        exact Nat.mod_eq_of_lt h32
      have h3 : readOnce header.length [header ++ data]
          = (header, if data.length = 0 then [] else [data], false) := by
        have hne : ¬ header.length = 0 := by simp [hhdr]
        simp only [readOnce, if_neg hne]
        rw [List.take_left]
        congr 1
        congr 1
        by_cases hd0 : data.length = 0
        · have hnil : data = [] := List.eq_nil_of_length_eq_zero hd0
          have hcond : (header ++ data).length ≤ header.length := by simp [hnil]
          rw [if_pos hd0, if_pos hcond]
        · have hcond : ¬ (header ++ data).length ≤ header.length := by
            simp only [List.length_append]
            omega
          rw [if_neg hd0, if_neg hcond, List.drop_left]
      have h5 : header ++ List.replicate (header.length - header.length) 0 = header := by
        simp
      unfold Read
      rw [h1]
      dsimp only
      rw [h2, h3]
      dsimp only
      rw [h5, hparse]
      dsimp only
      by_cases hf0 : 0 < fin
      · have hcond : ¬ data.length = 0 := by omega
        rw [if_pos hf0, if_neg hcond]
        rw [readFull_single fin data (by omega)]
        dsimp only
        rw [← hdlen, List.take_length]
      · rw [if_neg hf0]
        have hnil : data = [] := List.eq_nil_of_length_eq_zero (by omega)
        rw [hnil]
  · -- Write reproduces the bytes
    show leBytes 4 (encodeEntries items).length ++ encodeEntries items ++ data = _
    rw [henc, hhl]


/-! ### Index and inversion lemmas -/

theorem find?_first {α : Type} (l : List α) (p : α → Bool) : ∀ (i : Nat) (x : α),
    l[i]? = some x → p x = true →
    ∃ (k : Nat) (y : α), k ≤ i ∧ l[k]? = some y ∧ p y = true ∧
      (∀ (m : Nat) (z : α), m < k → l[m]? = some z → p z = false) ∧
      l.find? p = some y := by
  induction l with
  | nil => intro i x hx _; simp at hx
  | cons a l ih =>
    intro i x hx hpx
    by_cases hpa : p a = true
    · refine ⟨0, a, Nat.zero_le i, by simp, hpa, ?_, ?_⟩
      · intro m z hm _
        exact absurd hm (Nat.not_lt_zero m)
      · rw [List.find?_cons_of_pos _ hpa]
    · have hpa' : p a = false := by simp at hpa; simp [hpa]
      match i, hx with
      | 0, hx =>
        simp at hx
        rw [← hx] at hpx
        rw [hpx] at hpa'
        simp at hpa'
      | i + 1, hx =>
        simp only [List.getElem?_cons_succ] at hx
        obtain ⟨k, y, hk, hky, hpy, hmin, hfind⟩ := ih i x hx hpx
        refine ⟨k + 1, y, by omega, by simpa using hky, hpy, ?_, ?_⟩
        · intro m z hm hz
          match m, hz with
          | 0, hz => simp at hz; rw [← hz]; exact hpa'
          | m + 1, hz =>
            simp only [List.getElem?_cons_succ] at hz
            exact hmin m z (by omega) hz
        · rw [List.find?_cons_of_neg _ (by simp [hpa']), hfind]

theorem chain_first_start (ps : List (List Nat × List Nat)) (ov : Nat)
    (it : IndexItem) (h : (chain ov ps)[0]? = some it) : it.start = ov := by
  match ps, h with
  | p :: ps, h =>
    simp only [chain, List.getElem?_cons_zero, Option.some.injEq] at h
    rw [← h]

theorem chain_consec (ps : List (List Nat × List Nat)) : ∀ (ov i : Nat)
    (it it' : IndexItem), (chain ov ps)[i]? = some it →
    (chain ov ps)[i + 1]? = some it' → it'.start = it.stop := by
  induction ps with
  | nil => intro ov i it it' h _; simp [chain] at h
  | cons p ps ih =>
    intro ov i it it' h h'
    match i, h, h' with
    | 0, h, h' =>
      simp only [chain, List.getElem?_cons_zero, Option.some.injEq] at h
      simp only [chain, List.getElem?_cons_succ] at h'
      have := chain_first_start ps (ov + p.2.length) it' h'
      rw [this, ← h]
    | i + 1, h, h' =>
      simp only [chain, List.getElem?_cons_succ] at h h'
      exact ih (ov + p.2.length) i it it' h h'

theorem chain_entry (ps : List (List Nat × List Nat)) : ∀ (ov i : Nat)
    (it : IndexItem) (p : List Nat × List Nat), (chain ov ps)[i]? = some it →
    ps[i]? = some p → it.id = p.1 ∧ it.stop = it.start + p.2.length := by
  induction ps with
  | nil => intro ov i it p h _; simp [chain] at h
  | cons q ps ih =>
    intro ov i it p h hp
    match i, h, hp with
    | 0, h, hp =>
      simp only [chain, List.getElem?_cons_zero, Option.some.injEq] at h hp
      rw [← h, ← hp]
      exact ⟨rfl, rfl⟩
    | i + 1, h, hp =>
      simp only [chain, List.getElem?_cons_succ] at h hp
      exact ih (ov + q.2.length) i it p h hp

theorem getLast_getD_irrel {α β : Type} (l : List α) (f : α → β) (d d' : β)
    (h : l ≠ []) : (l.getLast?.map f).getD d = (l.getLast?.map f).getD d' := by
  obtain ⟨x, hx⟩ := Option.isSome_iff_exists.mp (List.getLast?_isSome.mpr h)
  rw [hx]
  rfl

theorem chain_getLast (ps : List (List Nat × List Nat)) : ∀ ov : Nat,
    (((chain ov ps).getLast?.map (fun it => it.stop)).getD ov)
      = ov + (ps.map (fun p => p.2.length)).sum := by
  induction ps with
  | nil => intro ov; simp [chain]
  | cons p ps ih =>
    intro ov
    match ps, ih with
    | [], _ => simp [chain, List.getLast?]
    | q :: ps2, ih =>
      have step : chain ov (p :: q :: ps2)
          = ⟨p.1, ov, ov + p.2.length⟩ :: chain (ov + p.2.length) (q :: ps2) := rfl
      have step2 : chain (ov + p.2.length) (q :: ps2)
          = ⟨q.1, ov + p.2.length, ov + p.2.length + q.2.length⟩
            :: chain (ov + p.2.length + q.2.length) ps2 := rfl
      rw [step, step2, List.getLast?_cons_cons, ← step2]
      rw [getLast_getD_irrel _ _ ov (ov + p.2.length) (by rw [step2]; simp)]
      rw [ih (ov + p.2.length)]
      simp
      omega



theorem chainInv_first_start (items : List IndexItem) (ov : Nat)
    (hinv : chainInv ov items) (it : IndexItem) (h : items[0]? = some it) :
    it.start = ov := by
  match items, hinv, h with
  | it0 :: rest, hinv, h =>
    simp only [List.getElem?_cons_zero, Option.some.injEq] at h
    rw [← h]
    exact hinv.1

theorem chainInv_consec (items : List IndexItem) : ∀ (ov i : Nat)
    (it it' : IndexItem), chainInv ov items → items[i]? = some it →
    items[i + 1]? = some it' → it'.start = it.stop := by
  induction items with
  | nil => intro ov i it it' _ h _; simp at h
  | cons it0 rest ih =>
    intro ov i it it' hinv h h'
    obtain ⟨hstart, hlt, hinv0⟩ := hinv
    match i, h, h' with
    | 0, h, h' =>
      simp only [List.getElem?_cons_zero, Option.some.injEq] at h
      simp only [List.getElem?_cons_succ] at h'
      have := chainInv_first_start rest it0.stop hinv0 it' h'
      rw [this, ← h]
    | i + 1, h, h' =>
      simp only [List.getElem?_cons_succ] at h h'
      exact ih it0.stop i it it' hinv0 h h'

theorem chainInv_mod (items : List IndexItem) : ∀ ov : Nat, chainInv ov items →
    ov < 2 ^ 64 → ∀ it ∈ items, ∃ l : Nat, l < 2 ^ 64 ∧
      it.stop = (it.start + l) % 2 ^ 64 := by
  induction items with
  | nil => intro ov _ _ it hit; simp at hit
  | cons it0 rest ih =>
    intro ov hinv hov it hit
    obtain ⟨hstart, hlt, hinv0⟩ := hinv
    rcases List.mem_cons.mp hit with h | h
    · subst h
      refine ⟨u64sub it.stop it.start, u64sub_lt _ _, ?_⟩
      rw [u64sub_add it.stop it.start hlt (by rw [hstart]; exact hov)]
    · exact ih it0.stop hinv0 hlt it h

theorem Read_some (cs : Chunks) (b : Blob) (h : Read cs = some b) :
    ∃ (hdr : List Nat) (fin : Nat),
      readHeaderBytes cs = some hdr
      ∧ parseHeader hdr 0 = some (b.header, fin) ∧ b.data.length = fin := by
  unfold Read at h
  cases h1 : readFull 4 cs with
  | none => rw [h1] at h; simp at h
  | some r1 =>
    obtain ⟨lenB, cs1⟩ := r1
    rw [h1] at h
    dsimp only at h
    cases h2 : readOnce (leNat lenB) cs1 with
    | mk got r2 =>
      obtain ⟨cs2, flag⟩ := r2
      rw [h2] at h
      cases flag with
      | true => simp at h
      | false =>
        have hrhb : readHeaderBytes cs
            = some (got ++ List.replicate (leNat lenB - got.length) 0) := by
          unfold readHeaderBytes
          rw [h1]
          dsimp only
          rw [h2]
        dsimp only at h
        cases h3 : parseHeader (got ++ List.replicate (leNat lenB - got.length) 0) 0 with
        | none => rw [h3] at h; simp at h
        | some pr =>
          obtain ⟨items, overall⟩ := pr
          rw [h3] at h
          dsimp only at h
          by_cases h4 : 0 < overall
          · rw [if_pos h4] at h
            cases h5 : readFull overall cs2 with
            | none => rw [h5] at h; simp at h
            | some dr =>
              obtain ⟨dat, rest⟩ := dr
              rw [h5] at h
              dsimp only at h
              simp only [Option.some.injEq] at h
              subst h
              exact ⟨got ++ List.replicate (leNat lenB - got.length) 0, overall, hrhb, h3,
                readFull_length _ _ _ _ h5⟩
          · rw [if_neg h4] at h
            simp only [Option.some.injEq] at h
            subst h
            exact ⟨got ++ List.replicate (leNat lenB - got.length) 0, overall, hrhb, h3, by
              simp
              omega⟩


/-! ### Concrete-computation helpers -/

theorem readFull_prefix (a t : List Nat) (h : t ≠ []) :
    readFull a.length [a ++ t] = some (a, [t]) := by
  have hlt : 0 < t.length := List.length_pos.mpr h
  rw [readFull_single _ _ (by simp)]
  have hc : ¬ (a ++ t).length ≤ a.length := by
    simp only [List.length_append]
    omega
  rw [List.take_left, if_neg hc, List.drop_left]

theorem readOnce_prefix (n : Nat) (a t : List Nat) (hn : a.length = n)
    (h : 0 < n) (ht : t ≠ []) : readOnce n [a ++ t] = (a, [t], false) := by
  subst hn
  have hlt : 0 < t.length := List.length_pos.mpr ht
  have hc : ¬ (a ++ t).length ≤ a.length := by
    simp only [List.length_append]
    omega
  simp only [readOnce, if_neg (by omega : ¬ a.length = 0)]
  rw [List.take_left, if_neg hc, List.drop_left]

theorem parseHeader_zeros (k : Nat) : ∀ (t : List Nat) (ov : Nat), ov < 2 ^ 64 →
    parseHeader (List.replicate (10 * k) 0 ++ t) ov
      = (parseHeader t ov).map
          (fun r => (List.replicate k ⟨[], ov, ov⟩ ++ r.1, r.2)) := by
  induction k with
  | zero =>
    intro t ov _
    simp only [Nat.mul_zero, List.replicate, List.nil_append]
    cases parseHeader t ov with
    | none => rfl
    | some r => simp
  | succ k ih =>
    intro t ov hov
    have hsplit : List.replicate (10 * (k + 1)) 0 ++ t
        = (0 : Nat) :: (0 : Nat)
          :: (([] : List Nat) ++ List.replicate 8 0
            ++ (List.replicate (10 * k) 0 ++ t)) := by
      have h10 : 10 * (k + 1) = 2 + (8 + 10 * k) := by omega
      rw [h10, List.replicate_add, List.replicate_add]
      simp [List.append_assoc]
    rw [hsplit]
    rw [parseHeader_cons 0 0 [] (List.replicate 8 0) _ ov (by rfl) (by simp)]
    have hz : leNat (List.replicate 8 0) = 0 := by decide
    rw [hz, Nat.add_zero, Nat.mod_eq_of_lt hov]
    rw [ih t ov hov]
    cases parseHeader t ov with
    | none => rfl
    | some r =>
      simp only [Option.map_some']
      rw [← List.cons_append]
      rfl



theorem readFull_prefix' (n : Nat) (a t : List Nat) (hn : a.length = n)
    (h : t ≠ []) : readFull n [a ++ t] = some (a, [t]) := by
  subst hn
  exact readFull_prefix a t h

theorem appendMonster_eq : appendAll New [(List.replicate 65536 0, [1])]
    = ⟨[⟨List.replicate 65536 0, 0, 1⟩], [1]⟩ := rfl

theorem encodeMonster_eq : encodeEntries [⟨List.replicate 65536 0, 0, 1⟩]
    = List.replicate 65538 0 ++ [1, 0, 0, 0, 0, 0, 0, 0] := by
  have hle2 : leBytes 2 65536 = [0, 0] := by decide
  have hsub : u64sub 1 0 = 1 := by decide
  have hle8 : leBytes 8 1 = [1, 0, 0, 0, 0, 0, 0, 0] := by decide
  show encodeItem ⟨List.replicate 65536 0, 0, 1⟩ ++ [] = _
  rw [List.append_nil]
  unfold encodeItem
  simp only [List.length_replicate]
  rw [hle2, hsub, hle8]
  have h2r : ([0, 0] : List Nat) = List.replicate 2 0 := rfl
  rw [h2r, ← List.replicate_add]


theorem parseMonsterTail_none : parseHeader (List.replicate 8 0 ++ [1, 0, 0, 0, 0, 0, 0, 0]) 0 = none := by
  decide


theorem parseMonsterHeader_none : parseHeader (encodeEntries [⟨List.replicate 65536 0, 0, 1⟩]) 0 = none := by
  rw [encodeMonster_eq]
  have h65538 : (65538 : Nat) = 10 * 6553 + 8 := by norm_num
  have hsplit : List.replicate 65538 (0:Nat) ++ [1, 0, 0, 0, 0, 0, 0, 0]
      = List.replicate (10 * 6553) 0 ++ (List.replicate 8 0 ++ [1, 0, 0, 0, 0, 0, 0, 0]) := by
    rw [h65538, List.replicate_add, List.append_assoc]
  rw [hsplit, parseHeader_zeros 6553 _ 0 (by norm_num)]
  rw [parseMonsterTail_none]
  rfl


theorem Read_header_parse_fail (hl : Nat) (header rest : List Nat)
    (hhl : hl = header.length) (h32 : header.length < 2 ^ 32)
    (hne : header ≠ []) (hrest : rest ≠ [])
    (hparse : parseHeader header 0 = none) :
    Read [leBytes 4 hl ++ (header ++ rest)] = none := by
  have hcons : header ++ rest ≠ [] := by
    cases header with
    | nil => exact absurd rfl hne
    | cons a l => simp
  have hpos : 0 < header.length := List.length_pos.mpr hne
  have h1 : readFull 4 [leBytes 4 hl ++ (header ++ rest)]
      = some (leBytes 4 hl, [header ++ rest]) :=
    readFull_prefix' 4 _ _ (length_leBytes 4 hl) hcons
  have h2 : leNat (leBytes 4 hl) = header.length := by
    rw [leNat_leBytes, hhl]
    have h4 : (256:ℕ) ^ 4 = 2 ^ 32 := by norm_num
    rw [h4]
    exact Nat.mod_eq_of_lt h32
  have h3 : readOnce header.length [header ++ rest] = (header, [rest], false) :=
    readOnce_prefix _ _ _ rfl hpos hrest
  have h5 : header ++ List.replicate (header.length - header.length) 0 = header := by
    rw [Nat.sub_self]
    exact List.append_nil _
  unfold Read
  rw [h1]
  dsimp only
  rw [h2, h3]
  dsimp only
  rw [h5, hparse]


/-! ### Claim theorems -/

/-- C8: appending the single entry with id bytes of the string "id"
(i.e. 105, 100) and data bytes 1, 2, 3 to a new container and writing it
produces exactly the bytes 12,0,0,0, 2,0,105,100, 3,0,0,0,0,0,0,0, 1,2,3
(little-endian u32 header length, u16 id length, id bytes, u64 data length,
then data), and the empty container writes exactly the four zero bytes. -/
theorem C8_concrete_bytes :
    (New.Append [105, 100] [1, 2, 3]).writeBytes
      = [12, 0, 0, 0, 2, 0, 105, 100, 3, 0, 0, 0, 0, 0, 0, 0, 1, 2, 3]
    ∧ New.writeBytes = [0, 0, 0, 0] := by
  constructor
  · decide
  · decide

/-- C9: Write does not modify the container: the method only reads the
receiver, so after the call (modelled by threading the receiver through
`WriteRun`) the entry list and data buffer are unchanged, all lookups
answer as before, and a repeated call yields identical output. -/
theorem C9_write_frame (b : Blob) :
    b.WriteRun.2 = b
    ∧ b.WriteRun.2.ItemCount = b.ItemCount
    ∧ (∀ id : List Nat, b.WriteRun.2.GetByID id = b.GetByID id)
    ∧ (∀ i : Int, b.WriteRun.2.GetByIndex i = b.GetByIndex i
        ∧ b.WriteRun.2.GetIDAtIndex i = b.GetIDAtIndex i)
    ∧ b.WriteRun.2.WriteRun.1 = b.WriteRun.1 :=
  ⟨rfl, rfl, fun _ => rfl, fun _ => ⟨rfl, rfl⟩, rfl⟩

/-- C3: the claim states that Read's header fill reads exactly headerLength
bytes, retrying until full or failing on a short read.  The code instead
issues a single `r.Read(header)` call and checks only the error: on a
source that delivers the same archive in chunks of 4, 2 and 13 bytes, the
eager read accepts 2 of the 12 requested header bytes, leaves the rest
zero-filled, and returns a bogus container with one empty-data entry whose
id is two zero bytes — while the same bytes delivered in one chunk produce
the correct container.  This theorem evaluates the code at that failing
input, exhibiting the short-read bug the claim denies. -/
theorem C3_header_short_read :
    Read [[12, 0, 0, 0], [2, 0], [105, 100, 3, 0, 0, 0, 0, 0, 0, 0, 1, 2, 3]]
      = some ⟨[⟨[0, 0], 0, 0⟩], []⟩
    ∧ Read [[12, 0, 0, 0, 2, 0, 105, 100, 3, 0, 0, 0, 0, 0, 0, 0, 1, 2, 3]]
      = some ⟨[⟨[105, 100], 0, 3⟩], [1, 2, 3]⟩ := by
  constructor
  · decide
  · decide

/-- C5: when two or more entries share an identifier, GetByID returns the
data of the first (lowest-index) matching entry with found = true, and no
earlier entry matches. -/
theorem C5_first_match (b : Blob) (id : List Nat) (i j : Nat)
    (it1 it2 : IndexItem) (hij : i < j)
    (h1 : b.header[i]? = some it1) (h2 : b.header[j]? = some it2)
    (hid1 : it1.id = id) (hid2 : it2.id = id) :
    ∃ (k : Nat) (itk : IndexItem), k ≤ i ∧ b.header[k]? = some itk ∧ itk.id = id
      ∧ (∀ (m : Nat) (itm : IndexItem), m < k → b.header[m]? = some itm → itm.id ≠ id)
      ∧ b.GetByID id = (b.extract itk, true) := by
  obtain ⟨k, y, hk, hky, hpy, hmin, hfind⟩ :=
    find?_first b.header (fun it => decide (it.id = id)) i it1 h1 (by simp [hid1])
  refine ⟨k, y, hk, hky, by simpa using hpy, ?_, ?_⟩
  · intro m itm hm hm2
    have := hmin m itm hm hm2
    simpa using this
  · unfold Blob.GetByID
    rw [hfind]

/-- C5 witness: a container with two entries sharing id byte 1; the lookup
resolves to the first entry's data. -/
theorem C5_first_match_witness :
    ∃ (k : Nat) (itk : IndexItem), k ≤ 0
      ∧ (⟨[⟨[1], 0, 1⟩, ⟨[1], 1, 2⟩], [10, 11]⟩ : Blob).header[k]? = some itk
      ∧ itk.id = [1]
      ∧ (∀ (m : Nat) (itm : IndexItem), m < k →
          (⟨[⟨[1], 0, 1⟩, ⟨[1], 1, 2⟩], [10, 11]⟩ : Blob).header[m]? = some itm → itm.id ≠ [1])
      ∧ (⟨[⟨[1], 0, 1⟩, ⟨[1], 1, 2⟩], [10, 11]⟩ : Blob).GetByID [1]
          = ((⟨[⟨[1], 0, 1⟩, ⟨[1], 1, 2⟩], [10, 11]⟩ : Blob).extract itk, true) :=
  C5_first_match _ [1] 0 1 ⟨[1], 0, 1⟩ ⟨[1], 1, 2⟩ (by decide) (by decide) (by decide)
    (by decide) (by decide)

/-- C7: out-of-range indices (negative or at least ItemCount) make
GetByIndex return nil data with found = false and GetIDAtIndex return the
empty identifier, with no error path; in-range indices return the entry's
data slice and id. -/
theorem C7_index_bounds (b : Blob) (i : Int) :
    ((i < 0 ∨ (b.ItemCount : Int) ≤ i) →
      b.GetByIndex i = ([], false) ∧ b.GetIDAtIndex i = [])
    ∧ (∀ it : IndexItem, 0 ≤ i → b.header[i.toNat]? = some it →
      b.GetByIndex i = (b.extract it, true) ∧ b.GetIDAtIndex i = it.id) := by
  constructor
  · intro h
    have h' : i < 0 ∨ (b.header.length : Int) ≤ i := h
    unfold Blob.GetByIndex Blob.GetIDAtIndex
    rw [if_pos h', if_pos h']
    exact ⟨rfl, rfl⟩
  · intro it h0 hx
    have hin : i.toNat < b.header.length := by
      by_contra hge
      rw [List.getElem?_eq_none (by omega)] at hx
      simp at hx
    have hcond : ¬ (i < 0 ∨ (b.header.length : Int) ≤ i) := by
      push_neg
      omega
    unfold Blob.GetByIndex Blob.GetIDAtIndex
    rw [if_neg hcond, if_neg hcond, hx]
    exact ⟨rfl, rfl⟩

/-- C7 witness: on a one-entry container, index -1 and index 1 are out of
range and answer not-found and empty; index 0 returns the entry. -/
theorem C7_index_bounds_witness :
    (⟨[⟨[5], 0, 1⟩], [9]⟩ : Blob).GetByIndex (-1) = ([], false)
    ∧ (⟨[⟨[5], 0, 1⟩], [9]⟩ : Blob).GetIDAtIndex 1 = []
    ∧ (⟨[⟨[5], 0, 1⟩], [9]⟩ : Blob).GetByIndex 0
        = ((⟨[⟨[5], 0, 1⟩], [9]⟩ : Blob).extract ⟨[5], 0, 1⟩, true)
    ∧ (⟨[⟨[5], 0, 1⟩], [9]⟩ : Blob).GetIDAtIndex 0 = [5] :=
  ⟨((C7_index_bounds _ (-1)).1 (by decide)).1,
   ((C7_index_bounds _ 1).1 (by decide)).2,
   ((C7_index_bounds _ 0).2 ⟨[5], 0, 1⟩ (by decide) (by decide)).1,
   ((C7_index_bounds _ 0).2 ⟨[5], 0, 1⟩ (by decide) (by decide)).2⟩



theorem GetByID_appendAll (ps : List (List Nat × List Nat)) (id : List Nat) :
    (appendAll New ps).GetByID id
      = (match ps.find? (fun q => decide (q.1 = id)) with
         | some q => (q.2, true)
         | none => ([], false)) := by
  rw [appendAll_New]
  have hkey := chain_find_extract ps [] id
  simp only [List.nil_append, List.length_nil] at hkey
  exact hkey

/-- C1 (amended): for every sequence of appended pairs whose identifiers fit
the u16 length field (at most 65535 bytes), whose encoded header fits the
u32 header-length field, and whose total data fits the u64 length fields,
writing and reading back yields a container on which GetByID returns the
data of the first entry appended with that id, and ItemCount equals the
number of appends. -/
theorem C1_roundtrip (ps : List (List Nat × List Nat))
    (hid : ∀ p ∈ ps, p.1.length ≤ 65535)
    (hhdr : (ps.map (fun p => 2 + p.1.length + 8)).sum < 2 ^ 32)
    (hdata : (ps.map (fun p => p.2.length)).sum < 2 ^ 64) :
    ∃ b : Blob, Read [(appendAll New ps).writeBytes] = some b
      ∧ b.ItemCount = ps.length
      ∧ ∀ p ∈ ps, ∃ d : List Nat,
          ps.find? (fun q => decide (q.1 = p.1)) = some (p.1, d)
          ∧ b.GetByID p.1 = (d, true) := by
  refine ⟨appendAll New ps, Read_writeBytes_appendAll ps hid hhdr hdata, ?_, ?_⟩
  · rw [appendAll_New]
    show (chain 0 ps).length = ps.length
    exact length_chain 0 ps
  · intro p hp
    have hsome : (ps.find? (fun q => decide (q.1 = p.1))).isSome :=
      List.find?_isSome.mpr ⟨p, hp, by simp⟩
    obtain ⟨q, hq⟩ := Option.isSome_iff_exists.mp hsome
    have hq1 : q.1 = p.1 := by
      have := List.find?_some hq
      simpa using this
    refine ⟨q.2, ?_, ?_⟩
    · rw [hq, ← hq1]
    · rw [GetByID_appendAll, hq]

/-- C1 witness: the single pair with id bytes 105, 100 and data 1, 2, 3
round-trips. -/
theorem C1_roundtrip_witness :
    ∃ b : Blob, Read [(appendAll New [([105, 100], [1, 2, 3])]).writeBytes] = some b
      ∧ b.ItemCount = [([105, 100], [1, 2, 3])].length
      ∧ ∀ p ∈ [([105, 100], [1, 2, 3])], ∃ d : List Nat,
          [([105, 100], [1, 2, 3])].find? (fun q => decide (q.1 = p.1)) = some (p.1, d)
          ∧ b.GetByID p.1 = (d, true) :=
  C1_roundtrip _ (by decide) (by decide) (by decide)

/-- C1 counterexample: the claim as stated quantifies over every sequence of
pairs.  Appending one pair whose identifier is 65536 zero bytes (with data
byte 1), writing, and reading back does not return a container at all: Write
silently truncates the id-length field to 0 (65536 mod 65536), the reader
misparses the id bytes as further header entries and fails, so GetByID
cannot return the original data. -/
theorem C1_counterexample :
    Read [(appendAll New [(List.replicate 65536 0, [1])]).writeBytes] = none := by
  rw [appendMonster_eq]
  have hElen : (encodeEntries [⟨List.replicate 65536 0, 0, 1⟩]).length = 65546 := by
    rw [encodeMonster_eq, List.length_append, List.length_replicate]
    decide
  unfold Blob.writeBytes
  simp only [hElen]
  rw [List.append_assoc]
  exact Read_header_parse_fail 65546 _ [1] hElen.symm
    (by rw [hElen]; norm_num)
    (by intro h; rw [h] at hElen; simp at hElen)
    (by simp) parseMonsterHeader_none

/-- C2: the claim states Write fails with IdentifierTooLong for identifiers
longer than 65535 bytes.  The code performs no such validation: writing a
container whose only entry has an identifier of 65536 bytes succeeds and
emits 0 (that is 65536 mod 65536) in the u16 id-length field, producing a
corrupt archive.  This theorem evaluates the code at that failing input:
the emitted id-length field bytes are 0, 0 although the identifier has
65536 bytes. -/
theorem C2_no_long_id_validation :
    ((appendAll New [(List.replicate 65536 97, [])]).writeBytes.drop 4).take 2 = [0, 0]
    ∧ (List.replicate 65536 97).length = 65536 := by
  constructor
  · have hb : appendAll New [(List.replicate 65536 97, [])]
        = ⟨[⟨List.replicate 65536 97, 0, 0⟩], []⟩ := rfl
    rw [hb]
    unfold Blob.writeBytes
    rw [List.append_nil, List.drop_left' (length_leBytes 4 _)]
    show (encodeItem ⟨List.replicate 65536 97, 0, 0⟩ ++ []).take 2 = [0, 0]
    rw [List.append_nil]
    unfold encodeItem
    rw [List.append_assoc, List.take_left' (length_leBytes 2 _)]
    simp only [List.length_replicate]
    decide
  · rw [List.length_replicate]

/-- C6 counterexample: the claim as stated holds for every container, but
the emitted u32 value is the header size reduced modulo 2^32.  A container
whose single entry has an identifier of 2^32 zero bytes has encoded header
size 2^32 + 10, yet Write emits 10 in the 4-byte field. -/
theorem C6_counterexample :
    leNat ((appendAll New [(List.replicate 4294967296 0, [])]).writeBytes.take 4)
      ≠ headerSize (appendAll New [(List.replicate 4294967296 0, [])]) := by
  have hb : appendAll New [(List.replicate 4294967296 0, [])]
      = ⟨[⟨List.replicate 4294967296 0, 0, 0⟩], []⟩ := rfl
  rw [hb]
  have hids : (⟨List.replicate 4294967296 0, 0, 0⟩ : IndexItem).id.length
      = 4294967296 := by
    show (List.replicate 4294967296 0).length = 4294967296
    rw [List.length_replicate]
  have hlen : (encodeEntries [⟨List.replicate 4294967296 0, 0, 0⟩]).length
      = 4294967306 := by
    rw [length_encodeEntries, List.map_cons, List.map_nil, List.sum_cons,
      List.sum_nil, hids]
    norm_num
  have hsz : headerSize ⟨[⟨List.replicate 4294967296 0, 0, 0⟩], []⟩ = 4294967306 := by
    unfold headerSize
    rw [List.map_cons, List.map_nil, List.sum_cons, List.sum_nil, hids]
    norm_num
  rw [hsz]
  unfold Blob.writeBytes
  rw [List.append_nil, List.take_left' (length_leBytes 4 _), hlen, leNat_leBytes]
  norm_num

/-- C6 (amended): the 4-byte headerLength value Write emits equals the
exact encoded header size reduced modulo 2^32; in particular it equals the
exact size, the sum over entries of 2 + len(id) + 8, whenever that sum is
below 2^32. -/
theorem C6_header_length (b : Blob) :
    leNat (b.writeBytes.take 4) = headerSize b % 2 ^ 32
    ∧ (headerSize b < 2 ^ 32 → leNat (b.writeBytes.take 4) = headerSize b) := by
  have hsz : (encodeEntries b.header).length = headerSize b := length_encodeEntries b.header
  have h1 : leNat (b.writeBytes.take 4) = headerSize b % 2 ^ 32 := by
    unfold Blob.writeBytes
    rw [List.append_assoc, List.take_left' (length_leBytes 4 _), leNat_leBytes, hsz]
    have h4 : (256:ℕ) ^ 4 = 2 ^ 32 := by norm_num
    rw [h4]
  exact ⟨h1, fun h => by rw [h1]; exact Nat.mod_eq_of_lt h⟩

/-- C6 witness: a small container whose header size is below 2^32 gets the
exact size in the length field. -/
theorem C6_header_length_witness :
    leNat ((New.Append [7] [9]).writeBytes.take 4) = headerSize (New.Append [7] [9]) :=
  (C6_header_length _).2 (by decide)



/-- C4: containers reachable by appends keep entries in insertion order with
entry 0 starting at 0, each later entry starting where the previous one
stopped, each entry spanning exactly the appended data's length, and the
data buffer as long as the last entry's end; containers produced by a
successful Read satisfy the same ordering and contiguity, entry i's end
being its start plus the i-th uint64 dataLength field that the header
dissection decoded (modulo 2^64, so end minus start as u64 equals that
declared length as u64), where the dissected header buffer and its
dataLength fields are computed from the source by `readHeaderBytes` and
`declaredLens`, and the data buffer is as long as the last entry's end. -/
theorem C4_index_invariants :
    (∀ ps : List (List Nat × List Nat),
      (appendAll New ps).ItemCount = ps.length
      ∧ (∀ it, (appendAll New ps).header[0]? = some it → it.start = 0)
      ∧ (∀ (i : Nat) (it it' : IndexItem), (appendAll New ps).header[i]? = some it →
          (appendAll New ps).header[i + 1]? = some it' → it'.start = it.stop)
      ∧ (∀ (i : Nat) (it : IndexItem) (p : List Nat × List Nat),
          (appendAll New ps).header[i]? = some it →
          ps[i]? = some p → it.id = p.1 ∧ it.stop = it.start + p.2.length)
      ∧ (appendAll New ps).data.length
          = (((appendAll New ps).header.getLast?.map (fun it => it.stop)).getD 0))
    ∧ (∀ (cs : Chunks) (b : Blob), Read cs = some b →
      (∀ it, b.header[0]? = some it → it.start = 0)
      ∧ (∀ (i : Nat) (it it' : IndexItem), b.header[i]? = some it →
          b.header[i + 1]? = some it' → it'.start = it.stop)
      ∧ (∃ (hdr ls : List Nat),
          readHeaderBytes cs = some hdr
          ∧ declaredLens hdr = some ls
          ∧ ls.length = b.header.length
          ∧ ∀ (i : Nat) (it : IndexItem) (l : Nat),
              b.header[i]? = some it → ls[i]? = some l →
              u64sub it.stop it.start = l % 2 ^ 64
              ∧ it.stop = (it.start + l) % 2 ^ 64)
      ∧ b.data.length = ((b.header.getLast?.map (fun it => it.stop)).getD 0)) := by
  constructor
  · intro ps
    rw [appendAll_New]
    refine ⟨?_, ?_, ?_, ?_, ?_⟩
    · exact length_chain 0 ps
    · intro it h
      exact chain_first_start ps 0 it h
    · intro i it it' h h'
      exact chain_consec ps 0 i it it' h h'
    · intro i it p h hp
      exact chain_entry ps 0 i it p h hp
    · show (catData ps).length
          = (((chain 0 ps).getLast?.map (fun it => it.stop)).getD 0)
      rw [chain_getLast ps 0, length_catData]
      omega
  · intro cs b hre
    obtain ⟨hdr, fin, hrhb, hparse, hdlen⟩ := Read_some cs b hre
    obtain ⟨hchain, hend⟩ :=
      parse_chainInv hdr.length hdr 0 b.header fin (by norm_num) hparse
    refine ⟨?_, ?_, ?_, ?_⟩
    · intro it h
      exact chainInv_first_start b.header 0 hchain it h
    · intro i it it' h h'
      exact chainInv_consec b.header 0 i it it' hchain h h'
    · obtain ⟨ls, hls, hlen, hcorr⟩ :=
        parse_declaredLens hdr.length hdr 0 b.header fin hparse
      exact ⟨hdr, ls, hrhb, hls, hlen, hcorr⟩
    · rw [hdlen, ← hend]
      exact chainInv_getLast b.header 0 hchain

/-- C4 witness: the invariants evaluated on a concrete two-append container
and on the container read back from a concrete archive, including the tie
between the read-back entry's span and the archive's declared dataLength
field. -/
theorem C4_index_invariants_witness :
    (appendAll New [([7], [9]), ([8], [])]).ItemCount = 2
    ∧ (∃ (hdr ls : List Nat),
        readHeaderBytes
            [[12, 0, 0, 0, 2, 0, 105, 100, 3, 0, 0, 0, 0, 0, 0, 0, 1, 2, 3]] = some hdr
        ∧ declaredLens hdr = some ls
        ∧ ls.length = (⟨[⟨[105, 100], 0, 3⟩], [1, 2, 3]⟩ : Blob).header.length
        ∧ ∀ (i : Nat) (it : IndexItem) (l : Nat),
            (⟨[⟨[105, 100], 0, 3⟩], [1, 2, 3]⟩ : Blob).header[i]? = some it →
            ls[i]? = some l →
            u64sub it.stop it.start = l % 2 ^ 64
            ∧ it.stop = (it.start + l) % 2 ^ 64)
    ∧ (⟨[⟨[105, 100], 0, 3⟩], [1, 2, 3]⟩ : Blob).data.length
        = (((⟨[⟨[105, 100], 0, 3⟩], [1, 2, 3]⟩ : Blob).header.getLast?.map
            (fun it => it.stop)).getD 0) := by
  refine ⟨?_, ?_, ?_⟩
  · exact (C4_index_invariants.1 [([7], [9]), ([8], [])]).1
  · exact (C4_index_invariants.2
      [[12, 0, 0, 0, 2, 0, 105, 100, 3, 0, 0, 0, 0, 0, 0, 0, 1, 2, 3]]
      ⟨[⟨[105, 100], 0, 3⟩], [1, 2, 3]⟩ (by decide)).2.2.1
  · exact (C4_index_invariants.2
      [[12, 0, 0, 0, 2, 0, 105, 100, 3, 0, 0, 0, 0, 0, 0, 0, 1, 2, 3]]
      ⟨[⟨[105, 100], 0, 3⟩], [1, 2, 3]⟩ (by decide)).2.2.2

/-- C10: deserialize-then-serialize is the identity on well-formed archives:
for a byte sequence made of a 4-byte little-endian header length equal to
the header's byte size (below 2^32), a header of bytes that parses
completely into entries, and exactly the declared total number of data
bytes (the final running u64 offset, i.e. the last entry's end), Read
succeeds and Write applied to the result reproduces the input exactly. -/
theorem C10_read_then_write_identity (hl : Nat) (header data : List Nat)
    (items : List IndexItem) (fin : Nat)
    (hhl : hl = header.length) (h32 : header.length < 2 ^ 32)
    (hbytes : ∀ x ∈ header, x < 256)
    (hparse : parseHeader header 0 = some (items, fin))
    (hdlen : data.length = fin) :
    Read [leBytes 4 hl ++ header ++ data] = some ⟨items, data⟩
    ∧ Blob.writeBytes ⟨items, data⟩ = leBytes 4 hl ++ header ++ data :=
  read_write_identity hl header data items fin hhl h32 hbytes hparse hdlen

/-- C10 witness: the archive holding one entry with id bytes 105, 100 and
three data bytes round-trips through Read and Write unchanged. -/
theorem C10_read_then_write_identity_witness :
    Read [leBytes 4 12 ++ [2, 0, 105, 100, 3, 0, 0, 0, 0, 0, 0, 0] ++ [1, 2, 3]]
      = some ⟨[⟨[105, 100], 0, 3⟩], [1, 2, 3]⟩
    ∧ Blob.writeBytes ⟨[⟨[105, 100], 0, 3⟩], [1, 2, 3]⟩
      = leBytes 4 12 ++ [2, 0, 105, 100, 3, 0, 0, 0, 0, 0, 0, 0] ++ [1, 2, 3] :=
  C10_read_then_write_identity 12 [2, 0, 105, 100, 3, 0, 0, 0, 0, 0, 0, 0] [1, 2, 3]
    [⟨[105, 100], 0, 3⟩] 3 (by decide) (by decide) (by decide) (by decide) (by decide)

end blob
